import Mathlib

/-!
# Verification of the astro-bet-advisor data-sync pipeline

Shallow embedding of the paginated fetch / transform / ID-resolution /
batch-upsert pipeline found in `src/scripts/nba_data_sync.py`,
`src/scripts/fetch_mlb_data.py`, `src/scripts/sync_sports_data.py` and
`src/scripts/fetch_player_stats.py`, together with proofs and refutations
of the specified properties.
-/

namespace AstroBet

/-! ## Pagination (`NBADataSync.get_players`, nba_data_sync.py lines 200-226)

The loop starts at offset 0 and repeatedly requests a page
`dataset[offset : offset+limit]`; it stops when the page is empty
(`if not data['players']: break`), extends the accumulator, stops when the
page is shorter than `limit`, and otherwise advances `offset` by `limit`.
The pair returned below is (records accumulated, number of page requests).
-/

def getPlayersLoop (l : List Nat) (limit offset : Nat) : List Nat × Nat :=
  if h : ((l.drop offset).take limit) = [] then ([], 1)
  else if h2 : ((l.drop offset).take limit).length < limit then
    ((l.drop offset).take limit, 1)
  else
    let r := getPlayersLoop l limit (offset + limit)
    ((l.drop offset).take limit ++ r.1, r.2 + 1)
termination_by l.length - offset
decreasing_by
  have hl : 0 < ((l.drop offset).take limit).length := List.length_pos.mpr h
  simp only [List.length_take, List.length_drop] at hl h2
  omega

/-- `get_players`: run the pagination loop from offset 0 over a fixed dataset
served in limit/offset pages. -/
def get_players (dataset : List Nat) (limit : Nat) : List Nat × Nat :=
  getPlayersLoop dataset limit 0

/-- Closed form of the pagination loop: it returns the remaining suffix of
the dataset and issues `(remaining length) / limit + 1` page requests. -/
theorem getPlayersLoop_eq (l : List Nat) (limit : Nat) (hP : 0 < limit) :
    ∀ offset, getPlayersLoop l limit offset
      = (l.drop offset, (l.length - offset) / limit + 1) := by
  intro offset
  generalize hm : l.length - offset = n
  induction n using Nat.strong_induction_on generalizing offset with
  | _ n ih =>
    subst hm
    rw [getPlayersLoop]
    by_cases hemp : ((l.drop offset).take limit) = []
    · simp only [hemp, dif_pos]
      have h0 : ((l.drop offset).take limit).length = 0 := by rw [hemp]; rfl
      simp only [List.length_take, List.length_drop] at h0
      have hle : l.length ≤ offset := by omega
      have hd : l.drop offset = [] := List.drop_eq_nil_of_le hle
      have hn0 : l.length - offset = 0 := by omega
      rw [hd, hn0]
      simp [Nat.zero_div]
    · simp only [hemp, dif_neg, not_false_iff]
      by_cases hshort : ((l.drop offset).take limit).length < limit
      · simp only [hshort, dif_pos]
        have hlen : ((l.drop offset).take limit).length
            = min limit (l.length - offset) := by
          simp [List.length_take, List.length_drop]
        have hlt : l.length - offset < limit := by
          rw [hlen] at hshort; omega
        have htake : (l.drop offset).take limit = l.drop offset := by
          apply List.take_of_length_le
          simp only [List.length_drop]; omega
        have hdiv : (l.length - offset) / limit = 0 := Nat.div_eq_of_lt hlt
        rw [htake, hdiv]
      · simp only [hshort, dif_neg, not_false_iff]
        have hlen : ((l.drop offset).take limit).length
            = min limit (l.length - offset) := by
          simp [List.length_take, List.length_drop]
        have hge : limit ≤ l.length - offset := by
          rw [hlen] at hshort; omega
        have hmeas : l.length - (offset + limit) < l.length - offset := by
          have h0 : 0 < ((l.drop offset).take limit).length :=
            List.length_pos.mpr hemp
          rw [hlen] at h0
          omega
        have ihh := ih (l.length - (offset + limit)) hmeas (offset + limit) rfl
        rw [ihh]
        dsimp only
        have hsplit : (l.drop offset).take limit ++ l.drop (offset + limit)
            = l.drop offset := by
          have : l.drop (offset + limit) = (l.drop offset).drop limit := by
            simp [List.drop_drop, Nat.add_comm]
          rw [this, List.take_append_drop]
        have hdiv : (l.length - offset) / limit
            = (l.length - (offset + limit)) / limit + 1 := by
          have h1 : l.length - (offset + limit) = (l.length - offset) - limit := by
            omega
          rw [h1, Nat.div_eq_sub_div hP hge]
        rw [hdiv, hsplit]

/-- C1 counterexample: a dataset of N = 1 record with page size P = 1 yields
2 page requests, not ceil(1/1) = 1 — the full final page forces one extra
(empty) request. -/
theorem C1_counterexample :
    (get_players [5] 1).2 = 2 ∧ (1 + 1 - 1) / 1 = 1 := by
  constructor
  · have h := getPlayersLoop_eq [5] 1 (by decide) 0
    rw [get_players, h]
    decide
  · decide

/-- C1 (amended): for every fixed-size dataset of N records served in
limit/offset pages of size P > 0, the loop returns exactly the N records and
issues exactly N / P + 1 page requests (one more than ceil(N/P) when P
divides N, since the loop only stops after seeing a short or empty page). -/
theorem C1_pagination (dataset : List Nat) (P : Nat) (hP : 0 < P) :
    (get_players dataset P).1 = dataset
      ∧ (get_players dataset P).2 = dataset.length / P + 1 := by
  have h := getPlayersLoop_eq dataset P hP 0
  rw [get_players, h]
  constructor
  · rfl
  · simp

/-- Witness for C1 at dataset [10, 20, 30], page size 2. -/
theorem C1_pagination_witness :
    0 < 2 ∧ ((get_players [10, 20, 30] 2).1 = [10, 20, 30]
      ∧ (get_players [10, 20, 30] 2).2 = [10, 20, 30].length / 2 + 1) :=
  ⟨by decide, C1_pagination [10, 20, 30] 2 (by decide)⟩

/-! ## Retry backoff (`NBADataSync.fetch_data`, nba_data_sync.py lines 154-174)

On an HTTP 429 the code computes
`backoff = min(INITIAL_RETRY_DELAY * (2 ** retry_count) + random.uniform(0, 1),
MAX_RETRY_DELAY)` with `INITIAL_RETRY_DELAY = 2` and `MAX_RETRY_DELAY = 30`.
The jitter is modelled as an arbitrary rational in [0, 1].
-/

def INITIAL_RETRY_DELAY : ℚ := 2

def MAX_RETRY_DELAY : ℚ := 30

def backoffDelay (retry_count : Nat) (jitter : ℚ) : ℚ :=
  min (INITIAL_RETRY_DELAY * 2 ^ retry_count + jitter) MAX_RETRY_DELAY

/-- C7: for every choice of jitter values in [0, 1], the delays computed for
retry attempts 0, 1, 2, ... form a non-decreasing sequence that never exceeds
the configured maximum delay. -/
theorem C7_backoff_monotone_capped (j : ℕ → ℚ)
    (hj : ∀ k, 0 ≤ j k ∧ j k ≤ 1) :
    Monotone (fun k => backoffDelay k (j k))
      ∧ ∀ k, backoffDelay k (j k) ≤ MAX_RETRY_DELAY := by
  constructor
  · apply monotone_nat_of_le_succ
    intro k
    have hpow : (1 : ℚ) ≤ 2 ^ k := one_le_pow₀ (by norm_num)
    have h1 := (hj k).2
    have h2 := (hj (k + 1)).1
    apply min_le_min _ le_rfl
    have : (2 : ℚ) ^ (k + 1) = 2 * 2 ^ k := by ring
    simp only [INITIAL_RETRY_DELAY, this]
    nlinarith
  · intro k
    exact min_le_right _ _

/-- Witness for C7 with the all-zero jitter sequence. -/
theorem C7_backoff_witness :
    (∀ k, 0 ≤ (fun _ : ℕ => (0 : ℚ)) k ∧ (fun _ : ℕ => (0 : ℚ)) k ≤ 1)
      ∧ (Monotone (fun k => backoffDelay k ((fun _ : ℕ => (0 : ℚ)) k))
        ∧ ∀ k, backoffDelay k ((fun _ : ℕ => (0 : ℚ)) k) ≤ MAX_RETRY_DELAY) :=
  ⟨fun _ => ⟨le_refl 0, by norm_num⟩,
    C7_backoff_monotone_capped (fun _ => 0) (fun _ => ⟨le_refl 0, by norm_num⟩)⟩

/-! ## Python string and value primitives

Python strings are modelled as `List Char`; JSON scalar values reaching the
transform are modelled by `JVal`. `jnull` covers both a JSON null and an
absent key wherever the code reads via `dict.get(key)` (both give `None`).
-/

abbrev Str := List Char

/-- Python JSON scalar. -/
inductive JVal where
  | jnull
  | jstr (s : Str)
  | jint (n : Int)
deriving DecidableEq

/-- Python exceptions raised by the modelled code paths. -/
inductive PyErr where
  | attributeError
  | nameError
  | valueError
  | zeroDivisionError
deriving DecidableEq

/-- Python truthiness of a JSON scalar (`if not x`). -/
def truthy : JVal → Bool
  | .jnull => false
  | .jint n => n ≠ 0
  | .jstr s => s ≠ []

/-- The three-character pattern `'lbs'`. -/
def lbs : Str := ['l', 'b', 's']

/-- `'lbs' in s` (Python substring test). -/
def hasLbs : Str → Bool
  | [] => false
  | c :: cs => ((c :: cs).take 3 = lbs : Bool) || hasLbs cs

/-- `s.replace('lbs', '')`: remove every non-overlapping occurrence of
`'lbs'`, scanning left to right. -/
def removeLbs : Str → Str
  | [] => []
  | 'l' :: 'b' :: 's' :: rest => removeLbs rest
  | c :: cs => c :: removeLbs cs

/-- Python `str.isspace`-style whitespace recognised by `str.strip()`. -/
def isPySpace (c : Char) : Bool :=
  c = ' ' || c = '\t' || c = '\n' || c = '\r' || c = '\x0b' || c = '\x0c'

/-- Python `s.strip()`: drop whitespace from both ends. -/
def pyStrip (s : Str) : Str :=
  ((s.dropWhile isPySpace).reverse.dropWhile isPySpace).reverse

/-- Decimal value of a digit string. -/
def digitsVal (s : Str) : Nat :=
  s.foldl (fun a c => a * 10 + (c.toNat - '0'.toNat)) 0

/-- Python `int(s)` on a string: tolerates surrounding whitespace and a
single leading sign, then requires a non-empty run of decimal digits
(digit-group underscores are not modelled). `none` is a `ValueError`. -/
def pyIntOfStr (s : Str) : Option Int :=
  let t := pyStrip s
  if t = [] then none
  else if t.head? = some '-' then
    if (t.drop 1) ≠ [] ∧ (t.drop 1).all Char.isDigit
    then some (-(digitsVal (t.drop 1) : Int)) else none
  else if t.head? = some '+' then
    if (t.drop 1) ≠ [] ∧ (t.drop 1).all Char.isDigit
    then some ((digitsVal (t.drop 1) : Int)) else none
  else if t.all Char.isDigit then some ((digitsVal t : Int)) else none

/-! ## Weight normalization (`NBADataSync.process_player`,
nba_data_sync.py lines 299-306)

```python
weight = player.get('weight')
if isinstance(weight, str) and 'lbs' in weight:
    try:
        weight = int(weight.replace('lbs', '').strip())
    except (ValueError, AttributeError):
        weight = None
processed_player['weight'] = weight
```
A non-string value, or a string without `'lbs'`, passes through unchanged. -/
def processWeight (w : JVal) : JVal :=
  match w with
  | .jstr s =>
    if hasLbs s then
      match pyIntOfStr (pyStrip (removeLbs s)) with
      | some n => .jint n
      | none => .jnull
    else .jstr s
  | v => v

/-- `dropWhile` is the identity when the predicate holds nowhere. -/
theorem dropWhile_eq_self_of_none (p : Char → Bool) (l : Str)
    (h : ∀ c ∈ l, p c = false) : l.dropWhile p = l := by
  cases l with
  | nil => rfl
  | cons c cs =>
    rw [List.dropWhile_cons, h c (List.mem_cons_self c cs)]
    simp

/-- `pyStrip` is the identity on whitespace-free strings. -/
theorem pyStrip_eq_self (l : Str) (h : ∀ c ∈ l, isPySpace c = false) :
    pyStrip l = l := by
  unfold pyStrip
  rw [dropWhile_eq_self_of_none _ _ h,
    dropWhile_eq_self_of_none _ _ (by intro c hc; exact h c (List.mem_reverse.mp hc)),
    List.reverse_reverse]

/-- A decimal digit is not a whitespace character. -/
theorem isPySpace_eq_false_of_digit (c : Char) (h : c.isDigit = true) :
    isPySpace c = false := by
  by_contra hc
  rw [Bool.not_eq_false] at hc
  unfold isPySpace at hc
  simp only [Bool.or_eq_true, decide_eq_true_eq] at hc
  rcases hc with ((((h1 | h1) | h1) | h1) | h1) | h1 <;> (subst h1; revert h; decide)

/-- `removeLbs` steps over any head character other than `'l'`. -/
theorem removeLbs_cons_ne (c : Char) (cs : Str) (hc : c ≠ 'l') :
    removeLbs (c :: cs) = c :: removeLbs cs := by
  rw [removeLbs.eq_def]
  split
  next heq => exact absurd heq (by simp)
  next rest heq =>
    exfalso
    apply hc
    exact (List.cons.injEq _ _ _ _ ▸ heq).1
  next c' cs' _ heq =>
    obtain ⟨h1, h2⟩ := List.cons.injEq _ _ _ _ ▸ heq
    rw [h1, h2]

/-- Appending `'lbs'` to any string makes the substring test succeed. -/
theorem hasLbs_append_lbs (d : Str) : hasLbs (d ++ lbs) = true := by
  induction d with
  | nil => rfl
  | cons c cs ih =>
    rw [List.cons_append, hasLbs, ih]
    simp

/-- On a digit string followed by `'lbs'`, the replacement removes exactly
the suffix. -/
theorem removeLbs_digits_append (d : Str) (hd : ∀ c ∈ d, c.isDigit = true) :
    removeLbs (d ++ lbs) = d := by
  induction d with
  | nil => rfl
  | cons c cs ih =>
    have hc : c ≠ 'l' := by
      intro h
      have := hd c (List.mem_cons_self c cs)
      rw [h] at this
      revert this; decide
    rw [List.cons_append, removeLbs_cons_ne c _ hc,
      ih (fun x hx => hd x (List.mem_cons_of_mem c hx))]

/-- A non-empty digit string parses to its decimal value. -/
theorem pyIntOfStr_digits (d : Str) (hne : d ≠ [])
    (hd : ∀ c ∈ d, c.isDigit = true) :
    pyIntOfStr d = some ((digitsVal d : Int)) := by
  have hstrip : pyStrip d = d :=
    pyStrip_eq_self d (fun c hc => isPySpace_eq_false_of_digit c (hd c hc))
  unfold pyIntOfStr
  rw [hstrip]
  rcases d with _ | ⟨c, cs⟩
  · exact absurd rfl hne
  · have hc := hd c (List.mem_cons_self c cs)
    have hcm : c ≠ '-' := by intro h; rw [h] at hc; revert hc; decide
    have hcp : c ≠ '+' := by intro h; rw [h] at hc; revert hc; decide
    rw [if_neg (by simp), if_neg (by simp [List.head?, hcm]),
      if_neg (by simp [List.head?, hcp]),
      if_pos (by simp only [List.all_eq_true]; exact hd)]

/-- C6 counterexample: `"215lbs"` is normalized to the integer 215, but the
unit-less `"215"` is left as the string `"215"`, which is not the value 215. -/
theorem C6_counterexample :
    processWeight (.jstr ['2', '1', '5', 'l', 'b', 's']) = .jint 215
      ∧ processWeight (.jstr ['2', '1', '5']) = .jstr ['2', '1', '5']
      ∧ JVal.jstr ['2', '1', '5'] ≠ JVal.jint 215 := by
  refine ⟨by decide, by decide, by decide⟩

/-- C6 (amended): for every weight string made of digits followed by the
`'lbs'` suffix, normalization strips the suffix and yields the integer value
of the digits; the equivalent unit-less input is passed through unchanged as
a string (it denotes the same number, but the two normalized values differ). -/
theorem C6_weight_normalization (d : Str) (hne : d ≠ [])
    (hd : ∀ c ∈ d, c.isDigit = true) :
    processWeight (.jstr (d ++ lbs)) = .jint ((digitsVal d : Int))
      ∧ processWeight (.jstr d) = .jstr d
      ∧ pyIntOfStr d = some ((digitsVal d : Int)) := by
  have hstrip : pyStrip d = d :=
    pyStrip_eq_self d (fun c hc => isPySpace_eq_false_of_digit c (hd c hc))
  refine ⟨?_, ?_, pyIntOfStr_digits d hne hd⟩
  · rw [processWeight, if_pos (hasLbs_append_lbs d),
      removeLbs_digits_append d hd, hstrip, pyIntOfStr_digits d hne hd]
  · rw [processWeight, if_neg]
    intro hcontra
    have : ∀ s : Str, (∀ c ∈ s, c.isDigit = true) → hasLbs s = false := by
      intro s
      induction s with
      | nil => intro _; rfl
      | cons c cs ih =>
        intro hall
        rw [hasLbs, Bool.or_eq_false_iff]
        constructor
        · simp only [decide_eq_false_iff_not]
          intro heq
          have hc : c = 'l' := by
            have h3 : ((c :: cs).take 3).head? = some c := rfl
            rw [heq] at h3
            exact (Option.some_injective _ h3).symm
          have := hall c (List.mem_cons_self c cs)
          rw [hc] at this
          revert this; decide
        · exact ih (fun x hx => hall x (List.mem_cons_of_mem c hx))
    rw [this d hd] at hcontra
    exact Bool.false_ne_true hcontra

/-- Witness for C6 at the digit string `"215"`. -/
theorem C6_weight_normalization_witness :
    (['2', '1', '5'] ≠ ([] : Str))
      ∧ (processWeight (.jstr (['2', '1', '5'] ++ lbs))
          = .jint ((digitsVal ['2', '1', '5'] : Int))
        ∧ processWeight (.jstr ['2', '1', '5']) = .jstr ['2', '1', '5']
        ∧ pyIntOfStr ['2', '1', '5'] = some ((digitsVal ['2', '1', '5'] : Int))) :=
  ⟨by decide, C6_weight_normalization ['2', '1', '5'] (by decide) (by decide)⟩

/-! ## Player transform (`NBADataSync.process_player`,
nba_data_sync.py lines 242-368)

The nested `player` object of a vendor record, restricted to the fields that
decide the transform's outcome. `id` is read with `player.get('id')` (absent
key gives `jnull`); the name fields are read with
`player.get('firstName', '')` followed by `.strip()`, so an absent key gives
`''`, while a present-but-null (or non-string) value makes `.strip()` raise
`AttributeError`; that is why they are `Option JVal` (`none` = key absent).
-/

structure MSFPlayer where
  id : JVal
  firstName : Option JVal
  lastName : Option JVal
  weight : JVal
deriving DecidableEq

/-- `player.get(key, '').strip()`. -/
def getStrStrip (v : Option JVal) : Except PyErr Str :=
  match v with
  | none => .ok []
  | some (.jstr s) => .ok (pyStrip s)
  | some _ => .error .attributeError

/-- The transformed row, restricted to the fields the claims inspect. The
remaining columns of `processed_player` are plain copies of vendor values
behind `isinstance`/`in` guards and cannot raise or alter the outcomes
proved here. -/
structure PlayerRow where
  first_name : Str
  last_name : Str
  weight : JVal
deriving DecidableEq

/-- The body of the `try:` block of `process_player` (together with the
identity-field reads feeding it): skip guard, stable-ID generation, row
construction. The stable-ID branch executes `hashlib.md5(...)`, but
nba_data_sync.py never imports `hashlib` (its imports are os, json, asyncio,
logging, base64, time, random, datetime, typing, dotenv, httpx, supabase),
so reaching that branch raises `NameError`. -/
def processPlayerBody (p : MSFPlayer) : Except PyErr (Option PlayerRow) := do
  let first ← getStrStrip p.firstName
  let last ← getStrStrip p.lastName
  if ¬ truthy p.id ∧ ¬ (first ≠ [] ∧ last ≠ []) then
    return none
  else if ¬ truthy p.id then
    throw .nameError
  else
    return some { first_name := first, last_name := last,
                  weight := processWeight p.weight }

/-- `process_player`: the `except Exception` handler increments
`self.total_errors` and returns `None`; the returned pair is
(transform result, number of errors counted). -/
def process_player (p : MSFPlayer) : Option PlayerRow × Nat :=
  match processPlayerBody p with
  | .ok r => (r, 0)
  | .error _ => (none, 1)

/-- Decidable test: the record yields no usable name (each name field is
absent, empty or whitespace after stripping, or is a non-string whose
`.strip()` raises). -/
def noUsableName (p : MSFPlayer) : Bool :=
  match getStrStrip p.firstName, getStrStrip p.lastName with
  | .ok f, .ok l => f = [] || l = []
  | _, _ => true

/-- Decidable test: both name fields strip to non-empty strings. -/
def hasFullName (p : MSFPlayer) : Bool :=
  match getStrStrip p.firstName, getStrStrip p.lastName with
  | .ok f, .ok l => f ≠ [] && l ≠ []
  | _, _ => false

/-- C4: for every vendor record whose identity fields are missing (falsy
external ID and no usable name), `process_player` returns `None`; every
exception inside the body is caught, so nothing propagates to the caller
(the result type is total). -/
theorem C4_transform_missing_identity (p : MSFPlayer)
    (hid : truthy p.id = false) (hname : noUsableName p = true) :
    (process_player p).1 = none := by
  unfold process_player processPlayerBody
  unfold noUsableName at hname
  rcases hf : getStrStrip p.firstName with e | f
  · simp [hf, Bind.bind, Except.bind]
  · rcases hl : getStrStrip p.lastName with e | l
    · simp [hf, hl, Bind.bind, Except.bind]
    · rw [hf, hl] at hname
      simp only [Bool.or_eq_true, decide_eq_true_eq] at hname
      have hcond : ¬ (¬ f = [] ∧ ¬ l = []) := by
        rintro ⟨a, b⟩
        rcases hname with h | h
        exacts [a h, b h]
      simp only [hf, hl, Bind.bind, Except.bind, hid, Bool.false_eq_true,
        not_false_eq_true, true_and, ne_eq]
      rw [if_pos hcond]
      simp [pure, Except.pure]

/-- Witness for C4: a record with no id and absent name keys. -/
theorem C4_transform_missing_identity_witness :
    (truthy (MSFPlayer.mk .jnull none none .jnull).id = false
      ∧ noUsableName (MSFPlayer.mk .jnull none none .jnull) = true)
      ∧ (process_player (MSFPlayer.mk .jnull none none .jnull)).1 = none :=
  ⟨⟨by decide, by decide⟩,
    C4_transform_missing_identity (MSFPlayer.mk .jnull none none .jnull)
      (by decide) (by decide)⟩

/-- C10: for every vendor record with a falsy player id but non-empty first
and last names, the transform reaches the stable-ID generation branch, whose
`hashlib.md5` call raises `NameError` (the module never imports `hashlib`);
the enclosing handler swallows it, so `process_player` returns `None` and
counts one error — the branch can never produce a row. -/
theorem C10_stable_id_branch_dead (p : MSFPlayer)
    (hid : truthy p.id = false) (hname : hasFullName p = true) :
    process_player p = (none, 1) := by
  unfold process_player processPlayerBody
  unfold hasFullName at hname
  rcases hf : getStrStrip p.firstName with e | f
  · rw [hf] at hname; exact absurd hname (by simp)
  · rcases hl : getStrStrip p.lastName with e | l
    · rw [hf, hl] at hname; exact absurd hname (by simp)
    · rw [hf, hl] at hname
      simp only [Bool.and_eq_true, decide_eq_true_eq] at hname
      have hcond : ¬ (¬ f = [] → l = []) := fun h => hname.2 (h hname.1)
      simp [hf, hl, Bind.bind, Except.bind, hid, hcond, throw, throwThe,
        MonadExceptOf.throw]

/-- Witness for C10: a record with no id but names "Le" / "B". -/
theorem C10_stable_id_branch_dead_witness :
    (truthy (MSFPlayer.mk .jnull (some (.jstr ['L', 'e']))
        (some (.jstr ['B'])) .jnull).id = false
      ∧ hasFullName (MSFPlayer.mk .jnull (some (.jstr ['L', 'e']))
        (some (.jstr ['B'])) .jnull) = true)
      ∧ process_player (MSFPlayer.mk .jnull (some (.jstr ['L', 'e']))
        (some (.jstr ['B'])) .jnull) = (none, 1) :=
  ⟨⟨by decide, by decide⟩,
    C10_stable_id_branch_dead _ (by decide) (by decide)⟩

/-! ## Season-stat percentages
(`PlayerStatsFetcher.fetch_player_season_statistics`,
fetch_player_stats.py lines 250-289)

Game logs are summed with `stats[k] += game_stats.get(vendorKey, 0)`; a game
without a `'stats'` key is skipped (`continue`). The percentages are then
computed as `made / att * 100 if att > 0 else 0`. Only the shooting
make/attempt fields are modelled: the other summed box-score fields and the
`minutes` parse (which has its own try/except) cannot influence the
percentages or raise out of the loop. Division is modelled as the partial
Python operation raising `ZeroDivisionError` on a zero denominator.
-/

structure GameStats where
  fieldGoalsMade : Option ℚ
  fieldGoalsAttempted : Option ℚ
  threePointFieldGoalsMade : Option ℚ
  threePointFieldGoalsAttempted : Option ℚ
  freeThrowsMade : Option ℚ
  freeThrowsAttempted : Option ℚ

/-- Running totals of the shooting fields. -/
structure SeasonTotals where
  fgm : ℚ
  fga : ℚ
  tpm : ℚ
  tpa : ℚ
  ftm : ℚ
  fta : ℚ

/-- The accumulation loop over `data['gamelogs']`; `none` is a game with no
`'stats'` key. -/
def accumulateStats (games : List (Option GameStats)) : SeasonTotals :=
  games.foldl
    (fun acc g =>
      match g with
      | none => acc
      | some gs =>
        { fgm := acc.fgm + gs.fieldGoalsMade.getD 0
          fga := acc.fga + gs.fieldGoalsAttempted.getD 0
          tpm := acc.tpm + gs.threePointFieldGoalsMade.getD 0
          tpa := acc.tpa + gs.threePointFieldGoalsAttempted.getD 0
          ftm := acc.ftm + gs.freeThrowsMade.getD 0
          fta := acc.fta + gs.freeThrowsAttempted.getD 0 })
    ⟨0, 0, 0, 0, 0, 0⟩

/-- Python `/` on rationals: raises `ZeroDivisionError` on a zero
denominator. -/
def pyDiv (a b : ℚ) : Except PyErr ℚ :=
  if b = 0 then .error .zeroDivisionError else .ok (a / b)

/-- `made / att * 100 if att > 0 else 0`. -/
def shootingPct (made att : ℚ) : Except PyErr ℚ :=
  if att > 0 then (pyDiv made att).map (· * 100) else .ok 0

/-- The percentage block of `fetch_player_season_statistics`: the three
computed shooting percentages, or the first uncaught exception. -/
def fetch_player_season_statistics (games : List (Option GameStats)) :
    Except PyErr (ℚ × ℚ × ℚ) := do
  let t := accumulateStats games
  let fg ← shootingPct t.fgm t.fga
  let tp ← shootingPct t.tpm t.tpa
  let ft ← shootingPct t.ftm t.fta
  return (fg, tp, ft)

/-- The guarded percentage never raises and has the specified value. -/
theorem shootingPct_eq (made att : ℚ) :
    shootingPct made att = .ok (if att > 0 then made / att * 100 else 0) := by
  unfold shootingPct pyDiv
  by_cases h : att > 0
  · rw [if_pos h, if_neg (by intro h0; rw [h0] at h; exact lt_irrefl 0 h),
      if_pos h]
    rfl
  · rw [if_neg h, if_neg h]

/-- C8: for every accumulated stat line, each shooting percentage equals
makes divided by attempts times 100 when attempts > 0 and 0 otherwise; the
division is only reached with a non-zero denominator, so the computation
never raises. -/
theorem C8_shooting_percentages (games : List (Option GameStats)) :
    fetch_player_season_statistics games
      = .ok
        (if (accumulateStats games).fga > 0
          then (accumulateStats games).fgm / (accumulateStats games).fga * 100
          else 0,
        if (accumulateStats games).tpa > 0
          then (accumulateStats games).tpm / (accumulateStats games).tpa * 100
          else 0,
        if (accumulateStats games).fta > 0
          then (accumulateStats games).ftm / (accumulateStats games).fta * 100
          else 0) := by
  simp only [fetch_player_season_statistics, shootingPct_eq, Bind.bind,
    Except.bind, pure, Except.pure]

/-! ## ID Resolution Cache update (fetch_mlb_data.py `main`, lines 369-382)

After each player chunk is upserted, the returned rows feed the in-memory
cache:
```python
if result:
    for player in result:
        if player.get('external_id') and player.get('id'):
            player_key_to_id[str(player['external_id'])] = player['id']
```
The dict is modelled as a function from key strings to optional values, and
`str(...)` by `pyStr`.
-/

/-- Python `str()` of a JSON scalar. -/
def pyStr : JVal → Str
  | .jstr s => s
  | .jint n =>
    if n < 0 then '-' :: Nat.toDigits 10 n.natAbs else Nat.toDigits 10 n.natAbs
  | .jnull => ['N', 'o', 'n', 'e']

/-- A row as returned by the upsert call. -/
structure UpsertedRow where
  external_id : JVal
  id : JVal
deriving DecidableEq

/-- One iteration of the cache-update loop. -/
def cacheStep (c : Str → Option JVal) (r : UpsertedRow) : Str → Option JVal :=
  if truthy r.external_id && truthy r.id then
    fun k => if k = pyStr r.external_id then some r.id else c k
  else c

/-- The cache-update loop over the upsert result. -/
def updateCache (cache : Str → Option JVal) (result : List UpsertedRow) :
    Str → Option JVal :=
  result.foldl cacheStep cache

theorem updateCache_cons (cache : Str → Option JVal) (x : UpsertedRow)
    (rest : List UpsertedRow) :
    updateCache cache (x :: rest) = updateCache (cacheStep cache x) rest := rfl

/-- Keys never written by the loop keep their previous binding. -/
theorem updateCache_ne (result : List UpsertedRow) (k : Str) :
    ∀ cache, (∀ y ∈ result, pyStr y.external_id ≠ k) →
      updateCache cache result k = cache k := by
  induction result with
  | nil => intro cache _; rfl
  | cons x rest ih =>
    intro cache hk
    rw [updateCache_cons,
      ih (cacheStep cache x) (fun y hy => hk y (List.mem_cons_of_mem x hy))]
    unfold cacheStep
    by_cases hx : truthy x.external_id && truthy x.id
    · rw [if_pos hx, if_neg]
      intro heq
      exact hk x (List.mem_cons_self x rest) heq.symm
    · rw [if_neg hx]

/-- C3: after an upsert step returns newly created rows — each carrying a
truthy external id and internal id, with pairwise distinct key strings — the
cache update loop leaves every returned row's (external_id, internal_id)
pair in the cache, so resolving that key within the same run yields the
newly assigned internal id without a fresh bulk populate. -/
theorem C3_cache_contains_returned_rows (result : List UpsertedRow)
    (hnodup : (result.map (fun r => pyStr r.external_id)).Nodup)
    (r : UpsertedRow) (hr : r ∈ result)
    (hext : truthy r.external_id = true) (hid : truthy r.id = true) :
    ∀ cache, updateCache cache result (pyStr r.external_id) = some r.id := by
  induction result with
  | nil => exact absurd hr (List.not_mem_nil r)
  | cons x rest ih =>
    intro cache
    rw [updateCache_cons]
    rcases List.mem_cons.mp hr with heq | hmem
    · subst heq
      have hothers : ∀ y ∈ rest, pyStr y.external_id ≠ pyStr r.external_id := by
        intro y hy hcontra
        rw [List.map_cons, List.nodup_cons] at hnodup
        exact hnodup.1 (hcontra ▸ List.mem_map_of_mem _ hy)
      rw [updateCache_ne rest (pyStr r.external_id) (cacheStep cache r) hothers]
      unfold cacheStep
      rw [if_pos (by rw [hext, hid]; rfl), if_pos rfl]
    · have hnodup' : (rest.map (fun r => pyStr r.external_id)).Nodup := by
        rw [List.map_cons, List.nodup_cons] at hnodup
        exact hnodup.2
      exact ih hnodup' hmem (cacheStep cache x)

/-- Witness for C3: one returned row with external id 7 and internal id
`"u"`, starting from the empty cache. -/
theorem C3_cache_witness :
    ((([UpsertedRow.mk (.jint 7) (.jstr ['u'])]).map
        (fun r => pyStr r.external_id)).Nodup
      ∧ UpsertedRow.mk (.jint 7) (.jstr ['u'])
          ∈ [UpsertedRow.mk (.jint 7) (.jstr ['u'])]
      ∧ truthy (UpsertedRow.mk (.jint 7) (.jstr ['u'])).external_id = true
      ∧ truthy (UpsertedRow.mk (.jint 7) (.jstr ['u'])).id = true)
      ∧ updateCache (fun _ => none) [UpsertedRow.mk (.jint 7) (.jstr ['u'])]
          (pyStr (UpsertedRow.mk (.jint 7) (.jstr ['u'])).external_id)
        = some (UpsertedRow.mk (.jint 7) (.jstr ['u'])).id :=
  ⟨⟨by decide, by decide, by decide, by decide⟩,
    C3_cache_contains_returned_rows _ (by decide) _ (by decide)
      (by decide) (by decide) _⟩

/-! ## Player preparation with team resolution
(`SupabaseManager.upsert_players`, sync_sports_data.py lines 425-442)

```python
team_id = None
for field in ['CurrentTeamID', 'TeamID', 'CurrentTeam', 'Team']:
    if field in player and player[field] is not None:
        team_ext_id = str(player[field])
        team_id = team_id_map.get(team_ext_id)
        if team_id:
            break
if not team_id:
    logger.debug(f"Skipping player ...")
    continue
```
Vendor team ids are naturals, internal ids are strings. The row built on
success carries further copied vendor fields and a None/empty filter that
do not affect which players are kept; they are omitted. The corresponding
MLB path (fetch_mlb_data.py lines 341-347) likewise skips the whole roster
of a team whose internal id is missing.
-/

structure SDPlayer where
  playerID : Option Nat
  currentTeamID : Option Nat
  teamID : Option Nat
  currentTeam : Option Nat
  team : Option Nat
  firstName : Str
  lastName : Str
  name : Str
deriving DecidableEq

/-- Python `s.split(' ', 1)`: `some (before, after)` when the string
contains a space, `none` otherwise (one-element split). -/
def splitFirstSpace : Str → Option (Str × Str)
  | [] => none
  | c :: cs =>
    if c = ' ' then some ([], cs)
    else (splitFirstSpace cs).map (fun p => (c :: p.1, p.2))

/-- The team-resolution loop: the first of the four vendor fields that is
present, non-null, and resolves to a truthy internal id in the map. -/
def resolveTeam (team_id_map : Nat → Option Str) (p : SDPlayer) : Option Str :=
  (p.currentTeamID.bind team_id_map) <|> (p.teamID.bind team_id_map)
    <|> (p.currentTeam.bind team_id_map) <|> (p.team.bind team_id_map)

/-- The prepared player row (claim-relevant fields). -/
structure SDRow where
  external_id : Nat
  first_name : Str
  last_name : Str
  current_team_id : Str
deriving DecidableEq

/-- Preparation of one player inside the loop body: skip (`none`) when the
team reference does not resolve, when no name survives, or when
`player['PlayerID']` is absent (a `KeyError` caught by the per-player
handler). -/
def prepPlayer (m : Nat → Option Str) (p : SDPlayer) : Option SDRow :=
  match resolveTeam m p with
  | none => none
  | some tid =>
    let nm :=
      if p.firstName = [] ∧ p.lastName = [] ∧ p.name ≠ [] then
        match splitFirstSpace p.name with
        | some q => q
        | none => (p.firstName, p.name)
      else (p.firstName, p.lastName)
    let f := pyStrip nm.1
    let l := pyStrip nm.2
    if f = [] ∧ l = [] then none
    else
      match p.playerID with
      | none => none
      | some pid => some ⟨pid, f, l, tid⟩

/-- The preparation pass over `players_data` building `upsert_data`. -/
def upsert_players_prep (m : Nat → Option Str) (players : List SDPlayer) :
    List SDRow :=
  players.filterMap (prepPlayer m)

/-- C5 counterexample: a well-formed player whose vendor team id 7 is not in
the (empty) team map contributes no row at all — in particular no row with a
null team reference is stored. -/
theorem C5_counterexample :
    upsert_players_prep (fun _ => none)
      [SDPlayer.mk (some 1) none (some 7) none none ['A'] ['B'] []] = [] := by
  decide

/-- C5 (amended): a player whose vendor team id does not resolve through the
team ID map is skipped entirely (no row is upserted for it, not even one
with a null team reference), while every other player of the batch is still
processed exactly as if the unresolved player were absent. -/
theorem C5_unresolved_team_skipped (m : Nat → Option Str)
    (ps₁ ps₂ : List SDPlayer) (p : SDPlayer)
    (hp : resolveTeam m p = none) :
    upsert_players_prep m (ps₁ ++ p :: ps₂)
      = upsert_players_prep m ps₁ ++ upsert_players_prep m ps₂ := by
  unfold upsert_players_prep
  rw [List.filterMap_append, List.filterMap_cons]
  have : prepPlayer m p = none := by unfold prepPlayer; rw [hp]
  rw [this]

/-- Witness for C5: the unresolved player between two resolvable ones. -/
theorem C5_unresolved_team_skipped_witness :
    (resolveTeam (fun t => if t = 1 then some ['u'] else none)
        (SDPlayer.mk (some 1) none (some 7) none none ['A'] ['B'] []) = none)
      ∧ upsert_players_prep (fun t => if t = 1 then some ['u'] else none)
          ([SDPlayer.mk (some 2) (some 1) none none none ['C'] ['D'] []]
            ++ (SDPlayer.mk (some 1) none (some 7) none none ['A'] ['B'] [])
              :: [SDPlayer.mk (some 3) (some 1) none none none ['E'] ['F'] []])
        = upsert_players_prep (fun t => if t = 1 then some ['u'] else none)
            [SDPlayer.mk (some 2) (some 1) none none none ['C'] ['D'] []]
          ++ upsert_players_prep (fun t => if t = 1 then some ['u'] else none)
            [SDPlayer.mk (some 3) (some 1) none none none ['E'] ['F'] []] :=
  ⟨by decide,
    C5_unresolved_team_skipped _ _ _ _ (by decide)⟩

/-! ## Batch upsert loop with per-row fallback
(`NBADataSync.sync_players_to_db`, nba_data_sync.py lines 404-521)

The loop walks the cleaned batches; on a batch-upsert exception it inspects
the message. For a `column "..." does not exist` error it calls the
`add_column_if_not_exists` RPC and, on RPC success, executes
```python
i -= BATCH_SIZE  # Reset to retry this batch
break
```
— the `break` exits the whole `for i in range(...)` loop (the `i -=` has no
effect on the iterator), so neither the failed batch nor any later batch is
processed. On RPC failure, or on any other exception, it falls through to
one upsert per row of the failed batch. The oracle `bo` gives each batch
attempt's outcome by index; `so i j` tells whether the individual upsert of
row `j` of batch `i` succeeds. The function returns `successful_upserts`.
-/

inductive BatchOutcome where
  | ok
  | colErrRpcOk
  | colErrRpcFail
  | otherErr
deriving DecidableEq

def syncPlayersLoop (bo : Nat → BatchOutcome) (so : Nat → Nat → Bool) :
    List (List Nat) → Nat → Nat
  | [], _ => 0
  | c :: cs, i =>
    match bo i with
    | .ok => c.length + syncPlayersLoop bo so cs (i + 1)
    | .colErrRpcOk => 0
    | .colErrRpcFail =>
      (List.range c.length).countP (fun j => so i j)
        + syncPlayersLoop bo so cs (i + 1)
    | .otherErr =>
      (List.range c.length).countP (fun j => so i j)
        + syncPlayersLoop bo so cs (i + 1)

/-- C9 failing run: two one-row batches; batch 0's upsert fails with a
missing-column error and the add-column RPC succeeds. The comment promises a
retry, but the `break` abandons the loop: 0 rows are upserted, although the
same data under a clean run yields 2 and under any non-column failure the
per-row fallback still reaches batch 1. -/
theorem C9_break_abandons_remaining_chunks :
    syncPlayersLoop (fun i => if i = 0 then .colErrRpcOk else .ok)
        (fun _ _ => true) [[1], [2]] 0 = 0
      ∧ syncPlayersLoop (fun _ => .ok) (fun _ _ => true) [[1], [2]] 0 = 2
      ∧ syncPlayersLoop (fun i => if i = 0 then .otherErr else .ok)
          (fun _ _ => false) [[1], [2]] 0 = 1 := by
  refine ⟨rfl, rfl, rfl⟩

/-! ## Row-by-row upsert (`upsert_data_to_supabase`,
fetch_mlb_data.py lines 220-276)

For each row of each chunk the function
1. if the row has a non-null `external_id`, selects by that id; if rows
   exist, updates every matching row with all non-`external_id` columns of
   the new row (and `continue`s — the update result is non-empty whenever
   rows matched);
2. otherwise inserts the row (appending it to the table).

The destination table is a list of rows; a row is its optional
`external_id` plus `val`, an abstraction of all remaining column values
(the update rewrites all of them at once, so one opaque field is faithful
for state equality). Chunking follows
`for i in range(0, len(data), chunk_size)` for `chunk_size ≥ 1`.
-/

structure MRow where
  ext : Option Nat
  val : Nat
deriving DecidableEq

/-- Does the table hold a row with this external id? (the select-by-eq
probe). -/
def keyIn (e : Nat) (db : List MRow) : Bool :=
  db.any (fun x => x.ext = some e)

/-- `update(...).eq('external_id', e)`: rewrite the non-key columns of
every row with external id `e`. -/
def updAll (e : Nat) (v : Nat) (db : List MRow) : List MRow :=
  db.map (fun x => if x.ext = some e then ⟨x.ext, v⟩ else x)

/-- One row of the inner loop: update when the key exists, insert
otherwise; rows without an external id are always inserted. -/
def processRow (db : List MRow) (r : MRow) : List MRow :=
  match r.ext with
  | some e => if keyIn e db then updAll e r.val db else db ++ [r]
  | none => db ++ [r]

/-- All rows of `data`, in order (the chunk loop visits them in order). -/
def upsertRows (db : List MRow) (rows : List MRow) : List MRow :=
  rows.foldl processRow db

/-- `data[i:i+n]` chunking for `n ≥ 1` (`range(0, len(data), n)`). -/
def chunksOf (n : Nat) (l : List MRow) : List (List MRow) :=
  match l with
  | [] => []
  | x :: xs => (x :: xs.take (n - 1)) :: chunksOf n (xs.drop (n - 1))
termination_by l.length
decreasing_by simp only [List.length_drop, List.length_cons]; omega

/-- `upsert_data_to_supabase(supabase, table, data, ..., chunk_size)`:
the nested chunk/row loops over the table state. -/
def upsert_data_to_supabase (db : List MRow) (data : List MRow)
    (chunk_size : Nat) : List MRow :=
  (chunksOf chunk_size data).foldl (fun acc c => c.foldl processRow acc) db

/-- Folding chunk by chunk equals folding the rows directly. -/
theorem foldl_chunksOf (n : Nat) (l : List MRow) :
    ∀ init : List MRow,
      (chunksOf n l).foldl (fun acc c => c.foldl processRow acc) init
        = l.foldl processRow init := by
  generalize hm : l.length = m
  induction m using Nat.strong_induction_on generalizing l with
  | _ m ih =>
    subst hm
    intro init
    rcases l with _ | ⟨x, xs⟩
    · rw [chunksOf]
      rfl
    · rw [chunksOf, List.foldl_cons]
      have hlen : (xs.drop (n - 1)).length < (x :: xs).length := by
        simp only [List.length_drop, List.length_cons]; omega
      rw [ih (xs.drop (n - 1)).length hlen (xs.drop (n - 1)) rfl]
      have hsplit : (x :: xs.take (n - 1)) ++ xs.drop (n - 1) = x :: xs := by
        rw [List.cons_append, List.take_append_drop]
      calc (xs.drop (n - 1)).foldl processRow
            ((x :: xs.take (n - 1)).foldl processRow init)
          = ((x :: xs.take (n - 1)) ++ xs.drop (n - 1)).foldl processRow init := by
            rw [List.foldl_append]
        _ = (x :: xs).foldl processRow init := by rw [hsplit]

theorem upsert_eq_upsertRows (db data : List MRow) (n : Nat) :
    upsert_data_to_supabase db data n = upsertRows db data :=
  foldl_chunksOf n data db

theorem processRow_some (db : List MRow) (r : MRow) (e : Nat)
    (he : r.ext = some e) :
    processRow db r
      = if keyIn e db = true then updAll e r.val db else db ++ [r] := by
  unfold processRow
  rw [he]

theorem processRow_none (db : List MRow) (r : MRow) (he : r.ext = none) :
    processRow db r = db ++ [r] := by
  unfold processRow
  rw [he]

/-- `updAll` never changes which external ids are present. -/
theorem keyIn_updAll (e' e : Nat) (v : Nat) (db : List MRow) :
    keyIn e' (updAll e v db) = keyIn e' db := by
  unfold keyIn updAll
  rw [List.any_map]
  congr 1
  funext x
  by_cases hx : x.ext = some e
  · simp [hx]
  · simp [hx]

/-- `processRow` never removes an external id. -/
theorem keyIn_processRow_mono (e : Nat) (db : List MRow) (r : MRow)
    (h : keyIn e db = true) : keyIn e (processRow db r) = true := by
  rcases hre : r.ext with _ | e'
  · rw [processRow_none db r hre]
    unfold keyIn at h ⊢
    rw [List.any_append, h]
    rfl
  · rw [processRow_some db r e' hre]
    by_cases hk : keyIn e' db = true
    · rw [if_pos hk, keyIn_updAll]
      exact h
    · rw [if_neg hk]
      unfold keyIn at h ⊢
      rw [List.any_append, h]
      rfl

/-- After processing a keyed row, its key is present. -/
theorem keyIn_processRow_self (db : List MRow) (r : MRow) (e : Nat)
    (he : r.ext = some e) : keyIn e (processRow db r) = true := by
  rw [processRow_some db r e he]
  by_cases hk : keyIn e db = true
  · rw [if_pos hk, keyIn_updAll]
    exact hk
  · rw [if_neg hk]
    unfold keyIn
    rw [List.any_append]
    have : [r].any (fun x => x.ext = some e) = true := by
      simp [he]
    rw [this, Bool.or_true]

theorem keyIn_upsertRows_mono (rows : List MRow) (e : Nat) :
    ∀ db, keyIn e db = true → keyIn e (upsertRows db rows) = true := by
  induction rows with
  | nil => intro db h; exact h
  | cons x xs ih =>
    intro db h
    exact ih (processRow db x) (keyIn_processRow_mono e db x h)

/-- Every key occurring in the processed rows is present afterwards. -/
theorem keyIn_upsertRows_of_mem (rows : List MRow) (r : MRow) (e : Nat)
    (hr : r ∈ rows) (he : r.ext = some e) :
    ∀ db, keyIn e (upsertRows db rows) = true := by
  induction rows with
  | nil => exact absurd hr (List.not_mem_nil r)
  | cons x xs ih =>
    intro db
    rcases List.mem_cons.mp hr with heq | hmem
    · subst heq
      exact keyIn_upsertRows_mono xs e (processRow db r)
        (keyIn_processRow_self db r e he)
    · exact ih hmem (processRow db x)

/-- The pure-update step: what `processRow` does when the key is present. -/
def stepU (s : List MRow) (r : MRow) : List MRow :=
  match r.ext with
  | some e => updAll e r.val s
  | none => s

theorem stepU_some (s : List MRow) (r : MRow) (e : Nat)
    (he : r.ext = some e) : stepU s r = updAll e r.val s := by
  unfold stepU
  rw [he]

theorem stepU_none (s : List MRow) (r : MRow) (he : r.ext = none) :
    stepU s r = s := by
  unfold stepU
  rw [he]

def applyUpd (db : List MRow) (rows : List MRow) : List MRow :=
  rows.foldl stepU db

/-- When every row's key is already present, the upsert loop is a pure
sequence of updates. -/
theorem upsertRows_eq_applyUpd (rows : List MRow) :
    ∀ db, (∀ r ∈ rows, ∃ e, r.ext = some e ∧ keyIn e db = true) →
      upsertRows db rows = applyUpd db rows := by
  induction rows with
  | nil => intro db _; rfl
  | cons x xs ih =>
    intro db hk
    obtain ⟨e, he, hin⟩ := hk x (List.mem_cons_self x xs)
    have hstep : processRow db x = stepU db x := by
      rw [processRow_some db x e he, if_pos hin, stepU_some db x e he]
    show upsertRows (processRow db x) xs = applyUpd (stepU db x) xs
    rw [hstep]
    apply ih
    intro r hr
    obtain ⟨e', he', hin'⟩ := hk r (List.mem_cons_of_mem x hr)
    refine ⟨e', he', ?_⟩
    rw [stepU_some db x e he, keyIn_updAll]
    exact hin'

/-- Per-row effect of one update step. -/
def upd1 (r x : MRow) : MRow :=
  match r.ext with
  | some e => if x.ext = some e then ⟨x.ext, r.val⟩ else x
  | none => x

theorem upd1_some (r x : MRow) (e : Nat) (he : r.ext = some e) :
    upd1 r x = if x.ext = some e then ⟨x.ext, r.val⟩ else x := by
  unfold upd1
  rw [he]

theorem upd1_none (r x : MRow) (he : r.ext = none) : upd1 r x = x := by
  unfold upd1
  rw [he]

theorem stepU_eq_map (s : List MRow) (r : MRow) :
    stepU s r = s.map (upd1 r) := by
  rcases hre : r.ext with _ | e
  · rw [stepU_none s r hre]
    calc s = s.map id := (List.map_id s).symm
      _ = s.map (upd1 r) := by
          apply List.map_congr_left
          intro x _
          exact (upd1_none r x hre).symm
  · rw [stepU_some s r e hre]
    unfold updAll
    apply List.map_congr_left
    intro x _
    exact (upd1_some r x e hre).symm

/-- The update pass acts pointwise on the table. -/
theorem applyUpd_eq_map (rows : List MRow) :
    ∀ db, applyUpd db rows
      = db.map (fun x => rows.foldl (fun y r => upd1 r y) x) := by
  induction rows with
  | nil =>
    intro db
    exact (List.map_id db).symm
  | cons r rs ih =>
    intro db
    show applyUpd (stepU db r) rs = _
    rw [ih (stepU db r), stepU_eq_map, List.map_map]
    rfl

/-- The value written last to key `e` by the row sequence, if any. -/
def lastWrite (rows : List MRow) (e : Nat) : Option Nat :=
  rows.foldl (fun acc r => if r.ext = some e then some r.val else acc) none

theorem lastWrite_foldl_init (e : Nat) (rows : List MRow) :
    ∀ a : Option Nat,
      rows.foldl (fun acc r => if r.ext = some e then some r.val else acc) a
        = match lastWrite rows e with
          | some v => some v
          | none => a := by
  induction rows with
  | nil => intro a; rfl
  | cons r rs ih =>
    intro a
    rw [List.foldl_cons]
    unfold lastWrite
    rw [List.foldl_cons]
    by_cases hre : r.ext = some e
    · rw [if_pos hre, if_pos hre, ih (some r.val)]
      rcases lastWrite rs e with _ | v
      · rfl
      · rfl
    · rw [if_neg hre, if_neg hre]
      rw [ih a]
      rfl

/-- No row writes key `e` iff `lastWrite` is `none`. -/
theorem lastWrite_eq_none (rows : List MRow) (e : Nat)
    (h : lastWrite rows e = none) : ∀ r ∈ rows, r.ext ≠ some e := by
  induction rows with
  | nil => intro r hr; exact absurd hr (List.not_mem_nil r)
  | cons x xs ih =>
    intro r hr
    unfold lastWrite at h
    rw [List.foldl_cons] at h
    rw [lastWrite_foldl_init] at h
    by_cases hx : x.ext = some e
    · rcases hlw : lastWrite xs e with _ | v
      · rw [hlw] at h
        simp only [if_pos hx] at h
        exact absurd h (by simp)
      · rw [hlw] at h
        exact absurd h (by simp)
    · rcases List.mem_cons.mp hr with heq | hmem
      · subst heq; exact hx
      · apply ih _ r hmem
        rcases hlw : lastWrite xs e with _ | v
        · rfl
        · rw [hlw] at h
          exact absurd h (by simp)

/-- A row without an external id is untouched by the update pass. -/
theorem foldl_upd1_none (rows : List MRow) (x : MRow) (hx : x.ext = none) :
    rows.foldl (fun y r => upd1 r y) x = x := by
  induction rows with
  | nil => rfl
  | cons r rs ih =>
    rw [List.foldl_cons]
    have : upd1 r x = x := by
      rcases hre : r.ext with _ | e
      · exact upd1_none r x hre
      · rw [upd1_some r x e hre, if_neg]
        rw [hx]
        exact fun h => Option.noConfusion h
    rw [this, ih]

/-- A keyed row ends the update pass holding the last written value for its
key (or its own value when the key is never written). -/
theorem foldl_upd1_char (rows : List MRow) :
    ∀ (x : MRow) (e : Nat), x.ext = some e →
      rows.foldl (fun y r => upd1 r y) x
        = ⟨some e, (lastWrite rows e).getD x.val⟩ := by
  induction rows with
  | nil =>
    intro x e hx
    rw [List.foldl_nil]
    unfold lastWrite
    rw [List.foldl_nil, Option.getD_none, ← hx]
  | cons r rs ih =>
    intro x e hx
    rw [List.foldl_cons]
    unfold lastWrite
    rw [List.foldl_cons, lastWrite_foldl_init]
    by_cases hre : r.ext = some e
    · have hupd : upd1 r x = ⟨some e, r.val⟩ := by
        rw [upd1_some r x e hre, if_pos hx, hx]
      rw [hupd, if_pos hre, ih ⟨some e, r.val⟩ e rfl]
      rcases lastWrite rs e with _ | v
      · rfl
      · rfl
    · have hupd : upd1 r x = x := by
        rcases hre' : r.ext with _ | e'
        · exact upd1_none r x hre'
        · rw [upd1_some r x e' hre', if_neg]
          intro hcontra
          rw [hx] at hcontra
          apply hre
          rw [hre', ← Option.some_injective Nat hcontra]
      rw [hupd, if_neg hre, ih x e hx]
      rcases lastWrite rs e with _ | v
      · rfl
      · rfl

/-- If every row of the table with key `e` carries value `v` and no
processed row writes key `e`, that stays true through the upsert loop. -/
theorem upsertRows_preserves_key_val (rows : List MRow) (e : Nat)
    (v : Nat) (hrows : ∀ r ∈ rows, r.ext ≠ some e) :
    ∀ s, (∀ x ∈ s, x.ext = some e → x.val = v) →
      ∀ x ∈ upsertRows s rows, x.ext = some e → x.val = v := by
  induction rows with
  | nil => intro s hs; exact hs
  | cons r rs ih =>
    intro s hs
    have hre : r.ext ≠ some e := hrows r (List.mem_cons_self r rs)
    apply ih (fun q hq => hrows q (List.mem_cons_of_mem r hq))
    intro x hx hxe
    rcases hr2 : r.ext with _ | e'
    · rw [processRow_none s r hr2] at hx
      rcases List.mem_append.mp hx with hmem | hmem
      · exact hs x hmem hxe
      · rcases List.mem_singleton.mp hmem with rfl
        rw [hr2] at hxe
        exact absurd hxe (fun h => Option.noConfusion h)
    · rw [processRow_some s r e' hr2] at hx
      by_cases hk : keyIn e' s = true
      · rw [if_pos hk] at hx
        unfold updAll at hx
        obtain ⟨y, hy, hyx⟩ := List.mem_map.mp hx
        by_cases hye : y.ext = some e'
        · rw [if_pos hye] at hyx
          subst hyx
          rw [hye] at hxe
          rw [hr2] at hre
          exact absurd hxe.symm (fun h => hre (h ▸ rfl))
        · rw [if_neg hye] at hyx
          subst hyx
          exact hs y hy hxe
      · rw [if_neg hk] at hx
        rcases List.mem_append.mp hx with hmem | hmem
        · exact hs x hmem hxe
        · rcases List.mem_singleton.mp hmem with rfl
          rw [hr2] at hre
          rw [hr2] at hxe
          exact absurd hxe (fun h => hre h)

/-- Right after processing row `r` keyed `e`, every table row keyed `e`
carries `r.val`. -/
theorem processRow_key_val (db : List MRow) (r : MRow) (e : Nat)
    (he : r.ext = some e) :
    ∀ x ∈ processRow db r, x.ext = some e → x.val = r.val := by
  intro x hx hxe
  rw [processRow_some db r e he] at hx
  by_cases hk : keyIn e db = true
  · rw [if_pos hk] at hx
    unfold updAll at hx
    obtain ⟨y, hy, hyx⟩ := List.mem_map.mp hx
    by_cases hye : y.ext = some e
    · rw [if_pos hye] at hyx
      subst hyx
      rfl
    · rw [if_neg hye] at hyx
      subst hyx
      exact absurd hxe hye
  · rw [if_neg hk] at hx
    rcases List.mem_append.mp hx with hmem | hmem
    · exfalso
      apply hk
      unfold keyIn
      rw [List.any_eq_true]
      exact ⟨x, hmem, by rw [hxe]; exact decide_eq_true rfl⟩
    · rcases List.mem_singleton.mp hmem with rfl
      rfl

/-- After the first pass, each table row keyed by a written key carries the
last value written to that key. -/
theorem upsertRows_lastWrite (rows : List MRow) :
    ∀ db (x : MRow) (e : Nat) (v : Nat),
      x ∈ upsertRows db rows → x.ext = some e →
      lastWrite rows e = some v → x.val = v := by
  induction rows with
  | nil =>
    intro db x e v _ _ hlw
    exact absurd hlw (by unfold lastWrite; simp)
  | cons r rs ih =>
    intro db x e v hx hxe hlw
    unfold lastWrite at hlw
    rw [List.foldl_cons, lastWrite_foldl_init] at hlw
    rcases hlw2 : lastWrite rs e with _ | v'
    · rw [hlw2] at hlw
      by_cases hre : r.ext = some e
      · rw [if_pos hre] at hlw
        have hv : v = r.val := (Option.some_injective Nat hlw).symm
        subst hv
        have hnone : ∀ q ∈ rs, q.ext ≠ some e := lastWrite_eq_none rs e hlw2
        exact upsertRows_preserves_key_val rs e r.val hnone
          (processRow db r) (processRow_key_val db r e hre) x hx hxe
      · rw [if_neg hre] at hlw
        exact absurd hlw (by simp)
    · rw [hlw2] at hlw
      have hv : v = v' := (Option.some_injective Nat hlw).symm
      subst hv
      exact ih (processRow db r) x e _ hx hxe hlw2

/-- C2: running the upsert twice with the same row set — every row carrying
a non-null external id — leaves the table in the same state as running it
once: no duplicate rows appear and no column value drifts. -/
theorem C2_upsert_idempotent (db data : List MRow) (chunk_size : Nat)
    (hkeys : ∀ r ∈ data, r.ext ≠ none) :
    upsert_data_to_supabase (upsert_data_to_supabase db data chunk_size)
        data chunk_size
      = upsert_data_to_supabase db data chunk_size := by
  simp only [upsert_eq_upsertRows]
  have hkeys' : ∀ r ∈ data, ∃ e, r.ext = some e := by
    intro r hr
    rcases hre : r.ext with _ | e
    · exact absurd hre (hkeys r hr)
    · exact ⟨e, rfl⟩
  have hcov : ∀ r ∈ data, ∃ e, r.ext = some e
      ∧ keyIn e (upsertRows db data) = true := by
    intro r hr
    obtain ⟨e, he⟩ := hkeys' r hr
    exact ⟨e, he, keyIn_upsertRows_of_mem data r e hr he db⟩
  rw [upsertRows_eq_applyUpd data (upsertRows db data) hcov,
    applyUpd_eq_map data (upsertRows db data)]
  have hid : ∀ x ∈ upsertRows db data,
      data.foldl (fun y r => upd1 r y) x = x := by
    intro x hx
    rcases hxe : x.ext with _ | e
    · exact foldl_upd1_none data x hxe
    · rw [foldl_upd1_char data x e hxe]
      rcases hlw : lastWrite data e with _ | v
      · rw [Option.getD_none, ← hxe]
      · rw [Option.getD_some,
          ← upsertRows_lastWrite data db x e v hx hxe hlw, ← hxe]
  calc (upsertRows db data).map (fun x => data.foldl (fun y r => upd1 r y) x)
      = (upsertRows db data).map id := List.map_congr_left hid
    _ = upsertRows db data := List.map_id _

/-- Witness for C2: a two-row set (with a repeated external id) applied to
the empty table with chunk size 50. -/
theorem C2_upsert_idempotent_witness :
    (∀ r ∈ [MRow.mk (some 1) 10, MRow.mk (some 1) 20, MRow.mk (some 2) 30],
        r.ext ≠ none)
      ∧ upsert_data_to_supabase
          (upsert_data_to_supabase []
            [MRow.mk (some 1) 10, MRow.mk (some 1) 20, MRow.mk (some 2) 30] 50)
          [MRow.mk (some 1) 10, MRow.mk (some 1) 20, MRow.mk (some 2) 30] 50
        = upsert_data_to_supabase []
            [MRow.mk (some 1) 10, MRow.mk (some 1) 20, MRow.mk (some 2) 30] 50 :=
  ⟨by decide,
    C2_upsert_idempotent []
      [MRow.mk (some 1) 10, MRow.mk (some 1) 20, MRow.mk (some 2) 30] 50
      (by decide)⟩

end AstroBet
